import Mathlib

/- Shallow embedding of the Word Error Rate metric and the greedy CTC decoder of
notebooks/107-speech-recognition-quantization/107-speech-recognition-quantization-wav2vec2.ipynb.
Python strings are modelled as List Char, logit scores as integers, the float
score fields as exact rationals, and raised exceptions as Except values. -/

set_option maxHeartbeats 1000000

/-- Python str.lower, mapping each character to lower case (the strings involved
are ASCII). -/
def pyLower (l : List Char) : List Char := l.map Char.toLower

/-- Python str.strip with no arguments: remove whitespace characters from both
ends. -/
def pyStrip (l : List Char) : List Char :=
  ((l.dropWhile Char.isWhitespace).reverse.dropWhile Char.isWhitespace).reverse

/-- Helper for pySplit; the first argument holds the characters of the word in
progress, reversed. -/
def pySplitAux : List Char → List Char → List (List Char)
  | cur, [] => if cur.isEmpty then [] else [cur.reverse]
  | cur, c :: cs =>
    if c.isWhitespace then
      if cur.isEmpty then pySplitAux [] cs else cur.reverse :: pySplitAux [] cs
    else pySplitAux (c :: cur) cs

/-- Python str.split with no arguments: split on runs of whitespace, dropping
empty parts. -/
def pySplit (l : List Char) : List (List Char) := pySplitAux [] l

/-- First elements of the itertools.groupby groups: collapse each run of
consecutive identical elements to a single occurrence. -/
def dedupRuns {α : Type} [DecidableEq α] : List α → List α
  | [] => []
  | [x] => [x]
  | x :: y :: xs => if x = y then dedupRuns (y :: xs) else x :: dedupRuns (y :: xs)

/-- Collapse every run of several consecutive spaces into a single space. This
is the operation the specification text describes for the decoder; it is not
what the source computes there. -/
def collapseSpaces : List Char → List Char
  | [] => []
  | [x] => [x]
  | x :: y :: xs =>
    if x = ' ' ∧ y = ' ' then collapseSpaces (y :: xs) else x :: collapseSpaces (y :: xs)

/-- Helper for argmax: i is the index of the next element, best the index of the
running maximum and bv its value. -/
def argmaxAux : List Int → Nat → Nat → Int → Nat
  | [], _, best, _ => best
  | x :: xs, i, best, bv =>
    if bv < x then argmaxAux xs (i + 1) i x else argmaxAux xs (i + 1) best bv

/-- numpy argmax over one row: index of the first occurrence of the maximal
value (0 on an empty row, where numpy would raise instead). -/
def argmax (row : List Int) : Nat :=
  match row with
  | [] => 0
  | x :: xs => argmaxAux xs 1 0 x

/-- Accumulator state of the MetricWER class: the fields named in the source
_sum_score, _sum_words and _cur_score. The float _cur_score is modelled as an
exact rational. -/
structure MetricWER where
  sum_score : Nat
  sum_words : Nat
  cur_score : ℚ
  deriving DecidableEq

/-- Class attribute alphabet of MetricWER: the 32 wav2vec2 output tokens. The
28th entry is the apostrophe character. -/
def MetricWER.alphabet : List (List Char) :=
  ["<pad>".toList, "<s>".toList, "</s>".toList, "<unk>".toList, "|".toList,
   "e".toList, "t".toList, "a".toList, "o".toList, "n".toList, "i".toList, "h".toList,
   "s".toList, "r".toList, "d".toList, "l".toList, "u".toList,
   "m".toList, "w".toList, "c".toList, "f".toList, "g".toList, "y".toList, "p".toList,
   "b".toList, "v".toList, "k".toList, [Char.ofNat 39], "x".toList, "j".toList,
   "q".toList, "z".toList]

/-- Class attribute words_delimiter of MetricWER. -/
def MetricWER.words_delimiter : List Char := "|".toList

/-- Class attribute pad_token of MetricWER. -/
def MetricWER.pad_token : List Char := "<pad>".toList

/-- State set up by the constructor of MetricWER: all three fields zero. -/
def MetricWER.init : MetricWER := { sum_score := 0, sum_words := 0, cur_score := 0 }

/-- Property value: the score of the last processed sample. The dictionary
wrapper with the single key WER is left implicit; the theorems speak about the
wrapped number. -/
def MetricWER.value (s : MetricWER) : ℚ := s.cur_score

/-- Property avg_value: sum_score divided by sum_words when sum_words is
nonzero, else 0, as in the source conditional expression. -/
def MetricWER.avg_value (s : MetricWER) : ℚ :=
  if s.sum_words ≠ 0 then (s.sum_score : ℚ) / (s.sum_words : ℚ) else 0

/-- Method reset: zero both running sums; _cur_score is left untouched. -/
def MetricWER.reset (s : MetricWER) : MetricWER :=
  { s with sum_score := 0, sum_words := 0 }

/-- Inner loop over j of the dynamic program in MetricWER._editdistance_eval,
computing the entries of table row i for columns 1 to m. Here x is
source[i - 1], left the entry of row i one column back, p0 the entry of row
i - 1 one column back, the fourth argument the remaining entries of row i - 1,
and the fifth the remaining target elements. Each new entry is
min(distance[i - 1][j] + 1, distance[i][j - 1] + 1, distance[i - 1][j - 1] + cost)
with cost 0 exactly when source[i - 1] equals target[j - 1], as in the source. -/
def rowNextAux {α : Type} [DecidableEq α] (x : α) : Nat → Nat → List Nat → List α → List Nat
  | _, _, _, [] => []
  | _, _, [], _ :: _ => []
  | left, p0, p1 :: ps, b :: bs =>
    let v := min (min (p1 + 1) (left + 1)) (p0 + (if x = b then 0 else 1))
    v :: rowNextAux x v p1 ps bs

/-- Outer loop over i of the dynamic program: fold the table rows over the
source elements, keeping only the current row. Row 0 is the range 0 to m, and
each row i starts with i, matching the two initialized border lines of the
table. -/
def lastRow {α : Type} [DecidableEq α] (t : List α) : List α → Nat → List Nat → List Nat
  | [], _, prev => prev
  | x :: s, i, prev =>
    lastRow t s (i + 1) ((i + 1) :: rowNextAux x (i + 1) (prev.headD 0) prev.tail t)

/-- Method MetricWER._editdistance_eval: Levenshtein distance with unit costs by
the classic (n+1) x (m+1) dynamic program; the returned value is
distance[n][m], the last entry of the last row. -/
def editdistance_eval {α : Type} [DecidableEq α] (source target : List α) : Nat :=
  (lastRow target source 0 (List.range (target.length + 1))).getLastD 0

/-- Function decode_logits of the notebook: greedy CTC decoding of a logits
matrix, one row per timestep. The numpy squeeze applied to the argmax vector is
the identity whenever the timestep count differs from one (at exactly one
timestep the source raises, since a zero-dimensional array is not iterable); the
vocabulary lookup is total here because in-shape rows produce indices inside the
alphabet. -/
def decode_logits (logits : List (List Int)) : List Char :=
  let token_ids := logits.map argmax
  let tokens := token_ids.map (fun idx => MetricWER.alphabet.getD idx [])
  let tokens2 := dedupRuns tokens
  let tokens3 := tokens2.filter (fun t => t ≠ MetricWER.pad_token)
  let res1 := (tokens3.map (fun t => if t = MetricWER.words_delimiter then [' '] else t)).flatten
  let res2 := pyStrip res1
  let res3 := List.intercalate [' '] (res2.splitOn ' ')
  pyLower res3

/-- The decoder exactly as claim C4 words it: the same pipeline, except that
after stripping, runs of several spaces are genuinely collapsed into one. -/
def decode_logits_claimed (logits : List (List Int)) : List Char :=
  let token_ids := logits.map argmax
  let tokens := token_ids.map (fun idx => MetricWER.alphabet.getD idx [])
  let tokens2 := dedupRuns tokens
  let tokens3 := tokens2.filter (fun t => t ≠ MetricWER.pad_token)
  let res1 := (tokens3.map (fun t => if t = MetricWER.words_delimiter then [' '] else t)).flatten
  let res2 := pyStrip res1
  pyLower (collapseSpaces res2)

/-- The decoder pipeline with the split and rejoin step dropped: argmax per row,
collapse runs, drop padding tokens, map the delimiter to a space, concatenate,
strip, lower-case. -/
def decode_logits_steps (logits : List (List Int)) : List Char :=
  let token_ids := logits.map argmax
  let tokens := token_ids.map (fun idx => MetricWER.alphabet.getD idx [])
  let tokens2 := dedupRuns tokens
  let tokens3 := tokens2.filter (fun t => t ≠ MetricWER.pad_token)
  let res1 := (tokens3.map (fun t => if t = MetricWER.words_delimiter then [' '] else t)).flatten
  pyLower (pyStrip res1)

/-- The exceptions MetricWER.update can surface: the assert on mismatched
lengths, and the ZeroDivisionError raised by the unguarded division assigning
_cur_score. Each carries the accumulator state at the moment the exception is
raised. -/
inductive UpdateError where
  | sizeMismatch (s : MetricWER)
  | zeroDivision (s : MetricWER)
  deriving DecidableEq

/-- Method MetricWER._get_metric_per_sample. The call site passes the decoded
prediction as the first scoring argument and the lower-cased reference string
as the second. Both running sums are incremented before the division, so when
the decoded prediction has zero words the ZeroDivisionError raised by the line
assigning _cur_score leaves the
sums already incremented; the error value carries that state. The guarded local
variable result is discarded by update and is not modelled. -/
def MetricWER.getMetricPerSample (s : MetricWER) (annot prediction : List Char) :
    Except MetricWER MetricWER :=
  let cur_score := editdistance_eval (pySplit annot) (pySplit prediction)
  let cur_words := (pySplit annot).length
  let s1 : MetricWER := { s with sum_score := s.sum_score + cur_score,
                                 sum_words := s.sum_words + cur_words }
  if cur_words = 0 then Except.error s1
  else Except.ok { s1 with cur_score := (cur_score : ℚ) / (cur_words : ℚ) }

/-- The loop of MetricWER.update over the paired samples: stops at the first
exception, carrying the state at that point. -/
def MetricWER.updateGo : MetricWER → List (List Char × List Char) → Except MetricWER MetricWER
  | s, [] => Except.ok s
  | s, (d, tg) :: rest =>
    match s.getMetricPerSample d tg with
    | Except.error e => Except.error e
    | Except.ok s1 => MetricWER.updateGo s1 rest

/-- Method MetricWER.update: decode every raw output, lower-case every target,
assert equal lengths (the AssertionError the specification calls SizeMismatch),
then score each pair in order. -/
def MetricWER.update (s : MetricWER) (output : List (List (List Int)))
    (target : List (List Char)) : Except UpdateError MetricWER :=
  let decoded := output.map decode_logits
  let target2 := target.map pyLower
  if output.length = target2.length then
    match MetricWER.updateGo s (decoded.zip target2) with
    | Except.ok s1 => Except.ok s1
    | Except.error e => Except.error (UpdateError.zeroDivision e)
  else Except.error (UpdateError.sizeMismatch s)

/-- Reference Levenshtein distance on lists, by the textbook head recursion with
unit costs. It is used to relate the row-based dynamic program above to the
algebraic properties of edit distance. -/
def lev {α : Type} [DecidableEq α] : List α → List α → Nat
  | [], t => t.length
  | _ :: s, [] => s.length + 1
  | a :: s, b :: t =>
    min (min (lev s (b :: t) + 1) (lev (a :: s) t + 1)) (lev s t + (if a = b then 0 else 1))
termination_by s t => s.length + t.length

/-- One alignment of two lists together with its cost: each constructor is one
column of an edit script, deleting from the left list, inserting from the right
list, or matching the two heads at cost one unless they are equal. -/
inductive Align {α : Type} [DecidableEq α] : List α → List α → Nat → Prop where
  | nil : Align [] [] 0
  | del (a : α) {s t : List α} {n : Nat} : Align s t n → Align (a :: s) t (n + 1)
  | ins (b : α) {s t : List α} {n : Nat} : Align s t n → Align s (b :: t) (n + 1)
  | subst (a b : α) {s t : List α} {n : Nat} :
      Align s t n → Align (a :: s) (b :: t) (n + (if a = b then 0 else 1))

/-- The tail of dynamic-programming row i, expressed through lev: with A the
reversed consumed source prefix and B the reversed consumed target prefix, the
remaining entries along ts are the distances from A to the growing reversed
target prefixes. -/
def rowOf {α : Type} [DecidableEq α] (A : List α) : List α → List α → List Nat
  | _, [] => []
  | B, b :: bs => lev A (b :: B) :: rowOf A (b :: B) bs

/-- Logits row of length 32 selecting alphabet index k: score one at position k
and zero elsewhere. -/
def unitRow (k : Nat) : List Int := (List.range 32).map (fun j => if j = k then 1 else 0)

/-- Two-timestep logits matrix whose rows both select index 7, decoding to the
one-letter word a. -/
def exPredA : List (List Int) := [unitRow 7, unitRow 7]

/-- Two-timestep logits matrix whose rows both select the padding index,
decoding to the empty string. -/
def exPredPad : List (List Int) := [unitRow 0, unitRow 0]

/-- Five-timestep logits matrix selecting indices 5, 4, 0, 4, 6: the tokens e,
delimiter, padding, delimiter, t, so the decoded string keeps two consecutive
spaces. -/
def exPredSpaced : List (List Int) :=
  [unitRow 5, unitRow 4, unitRow 0, unitRow 4, unitRow 6]

/- Decidable equality of Except values, used to evaluate concrete runs of the
accumulator. -/
deriving instance DecidableEq for Except

theorem lev_nil_left {α : Type} [DecidableEq α] (t : List α) : lev [] t = t.length := by
  simp [lev]

theorem lev_nil_right {α : Type} [DecidableEq α] (s : List α) : lev s [] = s.length := by
  cases s <;> simp [lev]

theorem lev_cons_cons {α : Type} [DecidableEq α] (a b : α) (s t : List α) :
    lev (a :: s) (b :: t) =
      min (min (lev s (b :: t) + 1) (lev (a :: s) t + 1))
        (lev s t + (if a = b then 0 else 1)) := by
  simp only [lev]

theorem align_nil_left {α : Type} [DecidableEq α] (t : List α) : Align ([] : List α) t t.length := by
  induction t with
  | nil => exact Align.nil
  | cons b t ih => exact Align.ins b ih

theorem align_nil_right {α : Type} [DecidableEq α] (s : List α) : Align s ([] : List α) s.length := by
  induction s with
  | nil => exact Align.nil
  | cons a s ih => exact Align.del a ih

theorem align_lev_aux {α : Type} [DecidableEq α] :
    ∀ (n : Nat) (s t : List α), s.length + t.length ≤ n → Align s t (lev s t) := by
  intro n
  induction n with
  | zero =>
    intro s t h
    cases s with
    | nil =>
      cases t with
      | nil => simpa [lev] using Align.nil
      | cons b t => simp at h
    | cons a s => simp at h
  | succ n ih =>
    intro s t h
    cases s with
    | nil => rw [lev_nil_left]; exact align_nil_left t
    | cons a s =>
      cases t with
      | nil => rw [lev_nil_right]; exact align_nil_right (a :: s)
      | cons b t =>
        rw [lev_cons_cons]
        rcases le_total (min (lev s (b :: t) + 1) (lev (a :: s) t + 1))
            (lev s t + (if a = b then 0 else 1)) with h1 | h1
        · rw [min_eq_left h1]
          rcases le_total (lev s (b :: t) + 1) (lev (a :: s) t + 1) with h2 | h2
          · rw [min_eq_left h2]
            refine Align.del a (ih s (b :: t) ?_)
            simp only [List.length_cons] at h ⊢
            omega
          · rw [min_eq_right h2]
            refine Align.ins b (ih (a :: s) t ?_)
            simp only [List.length_cons] at h ⊢
            omega
        · rw [min_eq_right h1]
          refine Align.subst a b (ih s t ?_)
          simp only [List.length_cons] at h
          omega

theorem align_lev {α : Type} [DecidableEq α] (s t : List α) : Align s t (lev s t) :=
  align_lev_aux (s.length + t.length) s t le_rfl

theorem lev_cons_le_left {α : Type} [DecidableEq α] (a : α) (s t : List α) :
    lev (a :: s) t ≤ lev s t + 1 := by
  cases t with
  | nil => rw [lev_nil_right, lev_nil_right]; simp
  | cons b t =>
    rw [lev_cons_cons]
    exact le_trans (min_le_left _ _) (min_le_left _ _)

theorem lev_cons_le_right {α : Type} [DecidableEq α] (b : α) (s t : List α) :
    lev s (b :: t) ≤ lev s t + 1 := by
  cases s with
  | nil => rw [lev_nil_left, lev_nil_left]; simp
  | cons a s =>
    rw [lev_cons_cons]
    exact le_trans (min_le_left _ _) (min_le_right _ _)

theorem lev_le_align {α : Type} [DecidableEq α] {s t : List α} {n : Nat}
    (h : Align s t n) : lev s t ≤ n := by
  induction h with
  | nil => simp [lev]
  | del a h ih =>
    refine le_trans (lev_cons_le_left _ _ _) ?_
    omega
  | ins b h ih =>
    refine le_trans (lev_cons_le_right _ _ _) ?_
    omega
  | subst a b h ih =>
    rw [lev_cons_cons]
    refine le_trans (min_le_right _ _) ?_
    omega

theorem align_symm {α : Type} [DecidableEq α] {s t : List α} {n : Nat}
    (h : Align s t n) : Align t s n := by
  induction h with
  | nil => exact Align.nil
  | del a _ ih => exact Align.ins a ih
  | ins b _ ih => exact Align.del b ih
  | subst a b _ ih =>
    have hc : (if a = b then 0 else 1) = (if b = a then 0 else 1) := by
      by_cases hab : a = b
      · simp [hab]
      · rw [if_neg hab, if_neg (fun hba => hab hba.symm)]
    rw [hc]
    exact Align.subst b a ih

theorem cost_triangle {α : Type} [DecidableEq α] (a b c : α) :
    (if a = c then 0 else 1) ≤ (if a = b then 0 else 1) + (if b = c then 0 else 1) := by
  rcases eq_or_ne a b with rfl | h1
  · rcases eq_or_ne a c with rfl | h2
    · simp
    · simp [h2]
  · rw [if_neg h1]
    have h4 : (if a = c then (0 : Nat) else 1) ≤ 1 := by split <;> omega
    omega

theorem align_trans_del {α : Type} [DecidableEq α] {t2 u : List α} {n2 : Nat} (b : α)
    (H : ∀ (s : List α) (m : Nat), Align s t2 m → ∃ k, k ≤ m + n2 ∧ Align s u k) :
    ∀ (m : Nat) (s : List α), Align s (b :: t2) m →
      ∃ k, k ≤ m + (n2 + 1) ∧ Align s u k := by
  intro m
  induction m using Nat.strong_induction_on with
  | _ m ihm =>
    intro s h1
    cases h1 with
    | ins x h1a =>
      obtain ⟨k, hk, A⟩ := H _ _ h1a
      exact ⟨k, by omega, A⟩
    | del a h1a =>
      obtain ⟨k, hk, A⟩ := ihm _ (by omega) _ h1a
      exact ⟨k + 1, by omega, Align.del a A⟩
    | subst a x h1a =>
      obtain ⟨k, hk, A⟩ := H _ _ h1a
      exact ⟨k + 1, by omega, Align.del a A⟩

theorem align_trans_subst {α : Type} [DecidableEq α] {t2 u2 : List α} {n2 : Nat} (b c : α)
    (H : ∀ (s : List α) (m : Nat), Align s t2 m → ∃ k, k ≤ m + n2 ∧ Align s u2 k) :
    ∀ (m : Nat) (s : List α), Align s (b :: t2) m →
      ∃ k, k ≤ m + (n2 + (if b = c then 0 else 1)) ∧ Align s (c :: u2) k := by
  intro m
  induction m using Nat.strong_induction_on with
  | _ m ihm =>
    intro s h1
    cases h1 with
    | ins x h1a =>
      obtain ⟨k, hk, A⟩ := H _ _ h1a
      exact ⟨k + 1, by omega, Align.ins c A⟩
    | del a h1a =>
      obtain ⟨k, hk, A⟩ := ihm _ (by omega) _ h1a
      exact ⟨k + 1, by omega, Align.del a A⟩
    | subst a x h1a =>
      obtain ⟨k, hk, A⟩ := H _ _ h1a
      refine ⟨k + (if a = c then 0 else 1), ?_, Align.subst a c A⟩
      have h3 := cost_triangle a b c
      omega

theorem align_trans {α : Type} [DecidableEq α] :
    ∀ {t u : List α} {n : Nat}, Align t u n →
      ∀ (s : List α) (m : Nat), Align s t m → ∃ k, k ≤ m + n ∧ Align s u k := by
  intro t u n h2
  induction h2 with
  | nil => exact fun s m h1 => ⟨m, by omega, h1⟩
  | del b h2a ih => exact fun s m h1 => align_trans_del b ih m s h1
  | ins c h2a ih =>
    intro s m h1
    obtain ⟨k, hk, A⟩ := ih s m h1
    exact ⟨k + 1, by omega, Align.ins c A⟩
  | subst b c h2a ih => exact fun s m h1 => align_trans_subst b c ih m s h1

theorem lev_symm {α : Type} [DecidableEq α] (s t : List α) : lev s t = lev t s :=
  le_antisymm (lev_le_align (align_symm (align_lev t s)))
    (lev_le_align (align_symm (align_lev s t)))

theorem lev_triangle {α : Type} [DecidableEq α] (s t u : List α) :
    lev s u ≤ lev s t + lev t u := by
  obtain ⟨k, hk, A⟩ := align_trans (align_lev t u) s (lev s t) (align_lev s t)
  exact le_trans (lev_le_align A) hk

theorem rowNextAux_rowOf {α : Type} [DecidableEq α] (x : α) :
    ∀ (ts B A : List α),
      rowNextAux x (lev (x :: A) B) (lev A B) (rowOf A B ts) ts = rowOf (x :: A) B ts := by
  intro ts
  induction ts with
  | nil => intro B A; simp [rowNextAux, rowOf]
  | cons b bs ih =>
    intro B A
    simp only [rowOf, rowNextAux]
    rw [← lev_cons_cons]
    rw [ih (b :: B) A]

theorem lastRow_rowOf {α : Type} [DecidableEq α] (t : List α) :
    ∀ (ss A : List α),
      lastRow t ss A.length (lev A [] :: rowOf A [] t) =
        lev (ss.reverse ++ A) [] :: rowOf (ss.reverse ++ A) [] t := by
  intro ss
  induction ss with
  | nil => intro A; simp [lastRow]
  | cons x ss2 ih =>
    intro A
    simp only [lastRow, List.headD_cons, List.tail_cons]
    have hlen : A.length + 1 = lev (x :: A) [] := by rw [lev_nil_right]; simp
    rw [hlen, rowNextAux_rowOf x t [] A]
    have h2 := ih (x :: A)
    simp only [List.length_cons] at h2
    rw [hlen] at h2
    rw [h2]
    simp [List.reverse_cons, List.append_assoc]

theorem rowOf_nil {α : Type} [DecidableEq α] (t : List α) :
    ∀ B : List α,
      rowOf ([] : List α) B t = (List.range t.length).map (fun k => k + (B.length + 1)) := by
  induction t with
  | nil => intro B; simp [rowOf]
  | cons b bs ih =>
    intro B
    simp only [rowOf, List.length_cons, List.range_succ_eq_map, List.map_cons, List.map_map]
    rw [List.cons.injEq]
    refine ⟨?_, ?_⟩
    · rw [lev_nil_left]
      simp
    · rw [ih (b :: B)]
      have hf : (fun k => k + ((b :: B).length + 1)) = ((fun k => k + (B.length + 1)) ∘ Nat.succ) := by
        funext k
        simp only [Function.comp_apply, List.length_cons, Nat.succ_eq_add_one]
        omega
      rw [hf]

theorem range_rowOf {α : Type} [DecidableEq α] (t : List α) :
    List.range (t.length + 1) = lev ([] : List α) [] :: rowOf ([] : List α) [] t := by
  rw [List.range_succ_eq_map, rowOf_nil t []]
  rw [List.cons.injEq]
  refine ⟨?_, ?_⟩
  · simp [lev]
  · have hf : Nat.succ = fun k => k + (List.length ([] : List α) + 1) := by
      funext k
      simp
    rw [hf]

theorem rowOf_getLast {α : Type} [DecidableEq α] (A : List α) :
    ∀ (ts B : List α), (lev A B :: rowOf A B ts).getLast? = some (lev A (ts.reverse ++ B)) := by
  intro ts
  induction ts with
  | nil => intro B; simp [rowOf]
  | cons b bs ih =>
    intro B
    simp only [rowOf, List.getLast?_cons_cons]
    rw [ih (b :: B)]
    simp [List.reverse_cons, List.append_assoc]

theorem editdistance_eval_eq_lev {α : Type} [DecidableEq α] (source target : List α) :
    editdistance_eval source target = lev source.reverse target.reverse := by
  unfold editdistance_eval
  rw [range_rowOf target]
  have h := lastRow_rowOf target source []
  simp only [List.length_nil, List.append_nil] at h
  rw [h]
  rw [List.getLastD_eq_getLast?, rowOf_getLast source.reverse target []]
  simp

theorem editdistance_eval_nil_right {α : Type} [DecidableEq α] (A : List α) :
    editdistance_eval A ([] : List α) = A.length := by
  rw [editdistance_eval_eq_lev]
  simp [lev_nil_right]

theorem update_exPredA_ab :
    MetricWER.update MetricWER.init [exPredA] [['a', ' ', 'b']] =
      Except.ok { sum_score := 1, sum_words := 1, cur_score := 1 } := by
  have hd : decode_logits exPredA = ['a'] := by decide
  have hst : pySplit (pyLower ['a', ' ', 'b']) = [['a'], ['b']] := by decide
  have hsp : pySplit ['a'] = [['a']] := by decide
  have hdist : editdistance_eval [['a']] [['a'], ['b']] = 1 := by decide
  simp [MetricWER.update, MetricWER.updateGo, MetricWER.getMetricPerSample, MetricWER.init,
    hd, hst, hsp, hdist]

theorem update_exPredA_nil :
    MetricWER.update MetricWER.init [exPredA] [[]] =
      Except.ok { sum_score := 1, sum_words := 1, cur_score := 1 } := by
  have hd : decode_logits exPredA = ['a'] := by decide
  have hsp : pySplit ['a'] = [['a']] := by decide
  have hdist : editdistance_eval [['a']] ([] : List (List Char)) = 1 := by decide
  simp [MetricWER.update, MetricWER.updateGo, MetricWER.getMetricPerSample, MetricWER.init,
    pyLower, pySplit, pySplitAux, hd, hsp, hdist]

theorem updateGo_sums :
    ∀ (pairs : List (List Char × List Char)) (s s2 : MetricWER),
      MetricWER.updateGo s pairs = Except.ok s2 →
      s2.sum_score = s.sum_score +
          (pairs.map (fun p => editdistance_eval (pySplit p.1) (pySplit p.2))).sum ∧
      s2.sum_words = s.sum_words + (pairs.map (fun p => (pySplit p.1).length)).sum := by
  intro pairs
  induction pairs with
  | nil =>
    intro s s2 h
    simp only [MetricWER.updateGo] at h
    cases h
    simp
  | cons p rest ih =>
    intro s s2 h
    obtain ⟨d, tg⟩ := p
    simp only [MetricWER.updateGo] at h
    cases hg : MetricWER.getMetricPerSample s d tg with
    | error e => rw [hg] at h; cases h
    | ok s1 =>
      rw [hg] at h
      obtain ⟨hsc, hsw⟩ := ih s1 s2 h
      by_cases hw : (pySplit d).length = 0
      · simp [MetricWER.getMetricPerSample, hw] at hg
      · simp only [MetricWER.getMetricPerSample, if_neg hw] at hg
        cases hg
        simp only [List.map_cons, List.sum_cons] at hsc hsw ⊢
        constructor
        · rw [hsc]; omega
        · rw [hsw]; omega

theorem updateGo_ok :
    ∀ (pairs : List (List Char × List Char)) (s : MetricWER),
      (∀ p ∈ pairs, pySplit p.1 ≠ []) →
      ∃ s2, MetricWER.updateGo s pairs = Except.ok s2 := by
  intro pairs
  induction pairs with
  | nil => intro s _; exact ⟨s, rfl⟩
  | cons p rest ih =>
    intro s h
    obtain ⟨d, tg⟩ := p
    have hd : pySplit d ≠ [] := h (d, tg) (List.mem_cons_self _ _)
    have hw : (pySplit d).length ≠ 0 := fun h0 => hd (List.length_eq_zero.mp h0)
    simp only [MetricWER.updateGo, MetricWER.getMetricPerSample, if_neg hw]
    exact ih _ (fun q hq => h q (List.mem_cons_of_mem _ hq))

/-- C1, counterexample: a successful update call whose single target has two
whitespace-separated words while the decoded prediction has one; the cumulative
word count grows by the decoded word count 1, not by the target word count 2,
refuting the claim that the amount added equals the reference word count. -/
theorem update_target_words_cex :
    MetricWER.update MetricWER.init [exPredA] [['a', ' ', 'b']] =
      Except.ok { sum_score := 1, sum_words := 1, cur_score := 1 } ∧
    (pySplit (pyLower ['a', ' ', 'b'])).length = 2 ∧
    ({ sum_score := 1, sum_words := 1, cur_score := 1 } : MetricWER).sum_words ≠
      MetricWER.init.sum_words + (pySplit (pyLower ['a', ' ', 'b'])).length :=
  ⟨update_exPredA_ab, by decide, by decide⟩

/-- C1 as amended: for every successful update call, the cumulative cost grows
by the sum over the processed pairs of the word-level Levenshtein distance
between the decoded prediction and the lower-cased reference target, and the
cumulative word count grows by the sum of the word counts of the DECODED
PREDICTIONS (the source passes the decoded string as the annotation argument,
whose word count is accumulated), not of the targets. -/
theorem update_accumulates (s : MetricWER) (output : List (List (List Int)))
    (target : List (List Char)) (s2 : MetricWER)
    (h : MetricWER.update s output target = Except.ok s2) :
    s2.sum_score = s.sum_score +
        (((output.map decode_logits).zip (target.map pyLower)).map
          (fun p => editdistance_eval (pySplit p.1) (pySplit p.2))).sum ∧
    s2.sum_words = s.sum_words +
        (((output.map decode_logits).zip (target.map pyLower)).map
          (fun p => (pySplit p.1).length)).sum := by
  simp only [MetricWER.update] at h
  by_cases hl : output.length = (target.map pyLower).length
  · rw [if_pos hl] at h
    cases hg : MetricWER.updateGo s ((output.map decode_logits).zip (target.map pyLower)) with
    | error e => rw [hg] at h; cases h
    | ok s1 =>
      rw [hg] at h
      cases h
      exact updateGo_sums _ _ _ hg
  · rw [if_neg hl] at h
    cases h

/-- Witness for the amended C1 at a concrete input: one sample whose prediction
decodes to a single word while the target has two. -/
theorem update_accumulates_witness :
    ({ sum_score := 1, sum_words := 1, cur_score := 1 } : MetricWER).sum_score =
        MetricWER.init.sum_score +
          ((([exPredA].map decode_logits).zip ([['a', ' ', 'b']].map pyLower)).map
            (fun p => editdistance_eval (pySplit p.1) (pySplit p.2))).sum ∧
    ({ sum_score := 1, sum_words := 1, cur_score := 1 } : MetricWER).sum_words =
        MetricWER.init.sum_words +
          ((([exPredA].map decode_logits).zip ([['a', ' ', 'b']].map pyLower)).map
            (fun p => (pySplit p.1).length)).sum :=
  update_accumulates MetricWER.init [exPredA] [['a', ' ', 'b']] _ update_exPredA_ab

/-- C2: avg_value returns the cumulative cost divided by the cumulative word
count, and returns 0 without any failure when the cumulative word count is
zero; proved for every accumulator state, hence for every reachable one. -/
theorem avg_value_spec (s : MetricWER) :
    (s.sum_words ≠ 0 → s.avg_value = (s.sum_score : ℚ) / (s.sum_words : ℚ)) ∧
    (s.sum_words = 0 → s.avg_value = 0) := by
  constructor <;> intro h <;> simp [MetricWER.avg_value, h]

/-- Witness for C2 on both branches: a state with word count two, and a state
with word count zero. -/
theorem avg_value_spec_witness :
    MetricWER.avg_value { sum_score := 1, sum_words := 2, cur_score := 0 } =
      ((1 : Nat) : ℚ) / ((2 : Nat) : ℚ) ∧
    MetricWER.avg_value { sum_score := 5, sum_words := 0, cur_score := 3 } = 0 :=
  ⟨(avg_value_spec { sum_score := 1, sum_words := 2, cur_score := 0 }).1 (by decide),
   (avg_value_spec { sum_score := 5, sum_words := 0, cur_score := 3 }).2 rfl⟩

/-- C3, counterexample: an equal-length, well-formed input (two timesteps of
32 in-range scores each) on which update raises a ZeroDivisionError, because the
prediction decodes to the empty string; so SizeMismatch and InvalidInput are not
the only failure modes. -/
theorem update_zero_division_cex :
    MetricWER.update MetricWER.init [exPredPad] [['a']] =
      Except.error (UpdateError.zeroDivision
        { sum_score := 1, sum_words := 0, cur_score := 0 }) ∧
    ([exPredPad] : List (List (List Int))).length = ([['a']] : List (List Char)).length :=
  ⟨by decide, rfl⟩

/-- C3 as amended: update fails with the SizeMismatch assert, before any state
change, whenever the sequence lengths differ; for equal-length inputs it
completes without failure provided every decoded prediction has at least one
word, and otherwise it raises a ZeroDivisionError (a third failure mode beyond
SizeMismatch and InvalidInput). -/
theorem update_failure_modes (s : MetricWER) (output : List (List (List Int)))
    (target : List (List Char)) :
    (output.length ≠ target.length →
      MetricWER.update s output target = Except.error (UpdateError.sizeMismatch s)) ∧
    (output.length = target.length →
      (∀ p ∈ output, pySplit (decode_logits p) ≠ []) →
      ∃ s2, MetricWER.update s output target = Except.ok s2) := by
  constructor
  · intro h
    simp [MetricWER.update, h]
  · intro hl hw
    have hl2 : output.length = (target.map pyLower).length := by simpa using hl
    have hpairs : ∀ p ∈ (output.map decode_logits).zip (target.map pyLower), pySplit p.1 ≠ [] := by
      intro p hp
      have h1 := (List.of_mem_zip hp).1
      obtain ⟨q, hq, hq2⟩ := List.mem_map.mp h1
      exact hq2 ▸ hw q hq
    obtain ⟨s2, hs2⟩ := updateGo_ok ((output.map decode_logits).zip (target.map pyLower)) s hpairs
    refine ⟨s2, ?_⟩
    simp only [MetricWER.update]
    rw [if_pos hl2, hs2]

/-- Witness for the amended C3: a mismatched-length call fails with
SizeMismatch, and an equal-length call whose prediction decodes to a nonempty
word list completes. -/
theorem update_failure_modes_witness :
    (MetricWER.update MetricWER.init [] [['a']] =
      Except.error (UpdateError.sizeMismatch MetricWER.init)) ∧
    (MetricWER.update MetricWER.init [exPredA] [['a']]).isOk = true := by
  constructor
  · exact (update_failure_modes MetricWER.init [] [['a']]).1 (by decide)
  · obtain ⟨s2, hs⟩ := (update_failure_modes MetricWER.init [exPredA] [['a']]).2 rfl (by decide)
    rw [hs]
    rfl

/-- C4, counterexample: the matrix selecting the tokens e, delimiter, padding,
delimiter, t. After deduplication the padding still separates the two delimiter
tokens, so dropping it leaves two adjacent spaces; the source rejoin step,
splitting on single spaces and rejoining, keeps both spaces, while the claimed
algorithm with genuine space collapsing yields a single space. -/
theorem decode_spaces_cex :
    decode_logits exPredSpaced ≠ decode_logits_claimed exPredSpaced ∧
    decode_logits exPredSpaced = ['e', ' ', ' ', 't'] ∧
    decode_logits_claimed exPredSpaced = ['e', ' ', 't'] :=
  ⟨by decide, by decide, by decide⟩

/-- C4 as amended: for every logits matrix of the stated shape, decode_logits
returns the string obtained by taking the argmax of each row, collapsing runs of
identical symbols, removing padding symbols, replacing delimiter symbols with a
space, concatenating, stripping, and lower-casing; the split-and-rejoin on
single spaces in the source is the identity and in particular does NOT collapse
runs of several spaces. -/
theorem decode_logits_pipeline (logits : List (List Int))
    (_shape : ∀ row ∈ logits, row.length = MetricWER.alphabet.length) :
    decode_logits logits = decode_logits_steps logits := by
  simp only [decode_logits, decode_logits_steps]
  rw [List.intercalate_splitOn]

/-- Witness for the amended C4 at the concrete five-timestep matrix of in-shape
rows. -/
theorem decode_logits_pipeline_witness :
    (∀ row ∈ exPredSpaced, row.length = MetricWER.alphabet.length) ∧
    decode_logits exPredSpaced = decode_logits_steps exPredSpaced :=
  ⟨by decide, decode_logits_pipeline exPredSpaced (by decide)⟩

/-- C5, counterexample: a call whose paired target has zero whitespace-separated
words but whose prediction decodes to one word. No error is raised, yet the
recorded current value is 1, not 0, so a subsequent read of value returns 1. -/
theorem cur_value_zero_words_cex :
    MetricWER.update MetricWER.init [exPredA] [[]] =
      Except.ok { sum_score := 1, sum_words := 1, cur_score := 1 } ∧
    MetricWER.value { sum_score := 1, sum_words := 1, cur_score := 1 } ≠ 0 :=
  ⟨update_exPredA_nil, by decide⟩

/-- C5 as amended: when the paired target has zero words, the per-sample routine
never records 0. If the decoded prediction also has zero words, the division
assigning the current value raises ZeroDivisionError with both sums already
incremented (here by zero, leaving the carried state equal to the input state);
otherwise it succeeds, the cost equals the decoded word count, and the recorded
current value is exactly 1. -/
theorem get_metric_zero_words (s : MetricWER) (annot prediction : List Char)
    (hp : pySplit prediction = []) :
    (pySplit annot = [] →
      MetricWER.getMetricPerSample s annot prediction = Except.error s) ∧
    (pySplit annot ≠ [] →
      MetricWER.getMetricPerSample s annot prediction =
        Except.ok { sum_score := s.sum_score + (pySplit annot).length,
                    sum_words := s.sum_words + (pySplit annot).length,
                    cur_score := 1 }) := by
  constructor
  · intro ha
    simp [MetricWER.getMetricPerSample, ha, hp, editdistance_eval, lastRow, List.range_succ]
  · intro ha
    have hw : (pySplit annot).length ≠ 0 := fun h0 => ha (List.length_eq_zero.mp h0)
    simp only [MetricWER.getMetricPerSample, hp, if_neg hw]
    rw [editdistance_eval_nil_right]
    have hq : ((pySplit annot).length : ℚ) / ((pySplit annot).length : ℚ) = 1 :=
      div_self (Nat.cast_ne_zero.mpr hw)
    rw [hq]

/-- Witness for the amended C5: the empty-empty pair errors with the state
unchanged, and a one-word decoded prediction against an empty target succeeds
with current value 1. -/
theorem get_metric_zero_words_witness :
    MetricWER.getMetricPerSample MetricWER.init [] [] = Except.error MetricWER.init ∧
    MetricWER.getMetricPerSample MetricWER.init ['a'] [] =
      Except.ok { sum_score := MetricWER.init.sum_score + (pySplit ['a']).length,
                  sum_words := MetricWER.init.sum_words + (pySplit ['a']).length,
                  cur_score := 1 } :=
  ⟨(get_metric_zero_words MetricWER.init [] [] rfl).1 rfl,
   (get_metric_zero_words MetricWER.init ['a'] [] rfl).2 (by decide)⟩

/-- C6: reset zeroes both cumulative counters and leaves the last-computed
current value unchanged, so after any sequence of updates avg_value of the reset
state is 0 while value still reports the previous score. -/
theorem reset_spec (s : MetricWER) :
    (MetricWER.reset s).avg_value = 0 ∧ (MetricWER.reset s).value = s.value ∧
    (MetricWER.reset s).sum_score = 0 ∧ (MetricWER.reset s).sum_words = 0 := by
  refine ⟨?_, rfl, rfl, rfl⟩
  simp [MetricWER.reset, MetricWER.avg_value]

/-- C7: the edit-distance routine of the accumulator is symmetric in its two
token sequences. -/
theorem editdistance_eval_symm {α : Type} [DecidableEq α] (a b : List α) :
    editdistance_eval a b = editdistance_eval b a := by
  rw [editdistance_eval_eq_lev, editdistance_eval_eq_lev, lev_symm]

/-- C8: the edit-distance routine of the accumulator satisfies the triangle
inequality. -/
theorem editdistance_eval_triangle {α : Type} [DecidableEq α] (a b c : List α) :
    editdistance_eval a c ≤ editdistance_eval a b + editdistance_eval b c := by
  rw [editdistance_eval_eq_lev, editdistance_eval_eq_lev, editdistance_eval_eq_lev]
  exact lev_triangle _ _ _

/-- C9: the length assert precedes every state mutation, so a mismatched-length
update fails carrying exactly the untouched input state: cumulative cost,
cumulative word count and current value are all as before the call. -/
theorem update_size_mismatch_atomic (s : MetricWER) (output : List (List (List Int)))
    (target : List (List Char)) (h : output.length ≠ target.length) :
    MetricWER.update s output target = Except.error (UpdateError.sizeMismatch s) := by
  simp [MetricWER.update, h]

/-- Witness for C9 at a concrete mismatched call. -/
theorem update_size_mismatch_atomic_witness :
    MetricWER.update MetricWER.init [] [['a']] =
      Except.error (UpdateError.sizeMismatch MetricWER.init) :=
  update_size_mismatch_atomic MetricWER.init [] [['a']] (by decide)

/-- C10: update is case-insensitive in the targets, because each target string
is lower-cased before any use; two target lists with the same lower-casing give
identical results on every state and prediction list. -/
theorem update_target_case_insensitive (s : MetricWER) (output : List (List (List Int)))
    (t1 t2 : List (List Char)) (h : t1.map pyLower = t2.map pyLower) :
    MetricWER.update s output t1 = MetricWER.update s output t2 := by
  simp only [MetricWER.update]
  rw [h]

/-- Witness for C10: an upper-case and a lower-case target produce the same
result. -/
theorem update_target_case_insensitive_witness :
    MetricWER.update MetricWER.init [exPredA] [['A']] =
      MetricWER.update MetricWER.init [exPredA] [['a']] :=
  update_target_case_insensitive MetricWER.init [exPredA] [['A']] [['a']] (by decide)
